import Mathlib

/-!
Verification of the PEDS (Proportional Engraftment of Donor Strains) pipeline of
`q2_fmt/_peds.py` against its specification.

Modelling choices, mirroring the source:
  * Sample metadata (a `qiime2.Metadata`) is a list of rows, each carrying a sample id
    together with the three columns the pipeline reads: a numeric `time` column
    (`Option Int`, `none` = NaN), a categorical reference/donor column
    (`Option String`, `none` = NaN) and a categorical subject column.  The column
    names passed as parameters in the source only select these columns, so in the
    typed model they drop out; existence and declared-type checks
    (`_check_for_time_column`, `_check_reference_column`, `_check_subject_column`,
    `_check_column_type`) succeed by construction and only `num_timepoints`
    (the count of distinct non-missing time values) survives.
  * The feature table (a pandas DataFrame) is a row list of `(sample id, abundances)`
    with a parallel list of feature ids naming the columns.
  * An exception raised in the source is an `Except.error` with a `PedsErr` payload
    carrying the identifiers the message enumerates.
  * numpy integer division `n / d` is `npDiv`: a float that is NaN for 0/0, +inf for
    n/0 with n > 0, and the rational n/d otherwise (`NpVal`).
-/

structure MRow where
  id : String
  time : Option Int
  ref : Option String
  subject : String
deriving Repr, DecidableEq

abbrev Metadata := List MRow

structure FTable where
  featureIds : List String
  rows : List (String × List Nat)
deriving Repr, DecidableEq

def FTable.sampleIds (t : FTable) : List String := t.rows.map (·.1)

inductive NpVal where
  | nan
  | inf
  | val (n d : Nat)
deriving Repr, DecidableEq

/-- numpy division of the two nonnegative integer counts, as a float value:
NaN for 0/0, +inf for a positive numerator over 0, and otherwise the exact
quotient, kept as the numerator-denominator pair (the rational it denotes is
`NpVal.toRat`; two pairs denote the same float exactly when their quotients
agree, and every equality proved below is between structurally equal pairs,
which is the stronger statement). -/
def npDiv (n d : Nat) : NpVal :=
  if d = 0 then (if n = 0 then .nan else .inf) else .val n d

/-- The rational value a finite `NpVal` denotes. -/
def NpVal.toRat : NpVal → ℚ
  | .nan => 0
  | .inf => 0
  | .val n d => (n : ℚ) / (d : ℚ)

inductive PedsErr where
  | missingIds (ids : List String)
  | missingAssociation (ids : List String)
  | duplicateTimepoint (subject : String) (times : List (Option Int))
  | incompleteSubjects (subjects : List String)
  | referentialIntegrity (refs : List String)
deriving Repr, DecidableEq

/-- One row of the Sample-mode result table, columns as in `sample_peds`. -/
structure SampleRow where
  id : String
  measure : NpVal
  transfered_donor_features : Nat
  total_donor_features : Nat
  donor : String
  subject : String
  group : Option Int
deriving Repr, DecidableEq

/-- One row of the Feature-mode result table, columns as in `feature_peds`
(`group` is the fixed `peds_time` of the time group, `subject` repeats the
feature id, as in the source). -/
structure FeatureRow where
  id : String
  measure : NpVal
  recipients_with_feature : Nat
  all_possible_recipients : Nat
  group : Int
  subject : String
deriving Repr, DecidableEq

/-- `qiime2.Metadata.filter_ids(ids_to_keep=table.index)`: every requested id must be
present in the metadata (otherwise qiime2 raises), and the metadata is restricted to
the requested ids, keeping its row order. -/
def filter_ids (m : Metadata) (ids : List String) : Except PedsErr Metadata :=
  if ids.all (fun i => m.any (fun r => r.id == i)) then
    .ok (m.filter (fun r => decide (r.id ∈ ids)))
  else
    .error (.missingIds (ids.filter (fun i => !(m.any (fun r => r.id == i)))))

/-- `_check_for_time_column`: `metadata[time_column].dropna().unique().size`. -/
def num_timepoints (m : Metadata) : Nat := ((m.filterMap (·.time)).dedup).length

/-- `_filter_associated_reference`: restrict the reference series to rows with a
non-missing time value; if any of those lacks a reference, either drop every
metadata row with a missing reference (`dropna(subset=[reference_column])`) and the
missing entries of the series, or raise naming the offending sample ids. -/
def _filter_associated_reference (m : Metadata) (filterMissingReferences : Bool) :
    Except PedsErr (Metadata × List MRow) :=
  let usedReferences := m.filter (fun r => r.time.isSome)
  if usedReferences.any (fun r => r.ref.isNone) then
    if filterMissingReferences then
      .ok (m.filter (fun r => r.ref.isSome), usedReferences.filter (fun r => r.ref.isSome))
    else
      .error (.missingAssociation
        ((usedReferences.filter (fun r => r.ref.isNone)).map (·.id)))
  else
    .ok (m, usedReferences)

/-- Time values of all rows of a given subject (pandas counts NaN as a duplicate of
NaN in `is_unique`, matched here by `Option Int` equality). -/
def subject_times (m : Metadata) (s : String) : List (Option Int) :=
  (m.filter (fun r => r.subject == s)).map (·.time)

/-- `_check_duplicate_subject_timepoint`: raise on the first subject (in row order)
whose time values repeat, reporting the subject and its full time list. -/
def _check_duplicate_subject_timepoint (m : Metadata) : Except PedsErr Unit :=
  match m.find? (fun r => decide (¬ (subject_times m r.subject).Nodup)) with
  | some r => .error (.duplicateTimepoint r.subject (subject_times m r.subject))
  | none => .ok ()

/-- Occurrence count of a subject in the metadata (`subject_series.value_counts()`). -/
def subject_count (m : Metadata) (s : String) : Nat :=
  (m.filter (fun r => r.subject == s)).length

/-- `_check_subjects_in_all_timepoints`: if some subject occurs fewer than
`numTimepoints` times, either keep exactly the rows of subjects occurring exactly
`numTimepoints` times (re-filtering the reference series to the kept sample ids), or
raise listing every subject whose count differs from `numTimepoints`. -/
def _check_subjects_in_all_timepoints (m : Metadata) (numTimepoints : Nat)
    (dropIncompleteSubjects : Bool) (usedReferences : List MRow) :
    Except PedsErr (Metadata × List MRow) :=
  if m.any (fun r => subject_count m r.subject < numTimepoints) then
    if dropIncompleteSubjects then
      let kept := m.filter (fun r => subject_count m r.subject == numTimepoints)
      .ok (kept, usedReferences.filter (fun r => decide (r.id ∈ kept.map (·.id))))
    else
      .error (.incompleteSubjects
        (((m.map (·.subject)).dedup).filter (fun s => subject_count m s != numTimepoints)))
  else
    .ok (m, usedReferences)

/-- `table > 0`: binarized presence table. -/
def binarize (t : FTable) : List (String × List Bool) :=
  t.rows.map (fun p => (p.1, p.2.map (fun a => decide (0 < a))))

/-- The donor ids appearing as values of the reference series (all non-missing on
every reachable path). -/
def refValues (ur : List MRow) : List String := ur.filterMap (·.ref)

/-- `metadata.loc[sample]` (metadata ids are unique in qiime2; first match). -/
def lookup_row (m : Metadata) (s : String) : Option MRow := m.find? (fun r => r.id == s)

/-- `metadata.loc[sample, reference_column]` as a string (defined on reachable states). -/
def donor_of (m : Metadata) (s : String) : String :=
  ((lookup_row m s).bind (·.ref)).getD ""

def subject_of (m : Metadata) (s : String) : String :=
  ((lookup_row m s).map (·.subject)).getD ""

def time_of (m : Metadata) (s : String) : Option Int :=
  (lookup_row m s).bind (·.time)

/-- `donor_df.to_numpy()[donor_df.index.get_loc(donor)]`: the donor's presence row
in the donor sub-table. -/
def donor_row (donorDf : List (String × List Bool)) (d : String) : List Bool :=
  ((donorDf.find? (fun p => p.1 == d)).map (·.2)).getD []

/-- `_create_recipient_table`: rows of the presence table whose id indexes the
reference series restricted to the current metadata. -/
def _create_recipient_table (ur : List MRow) (m : Metadata)
    (bin : List (String × List Bool)) : List (String × List Bool) :=
  let subset := ur.filter (fun r => decide (r.id ∈ m.map (·.id)))
  bin.filter (fun p => decide (p.1 ∈ subset.map (·.id)))

/-- The referential-integrity guard of `_compute_peds`: every reference value must
be a row of the feature table. -/
def refs_in_table (t : FTable) (ur : List MRow) : Bool :=
  (refValues ur).all (fun d => decide (d ∈ t.sampleIds))

def missing_refs (t : FTable) (ur : List MRow) : List String :=
  ((refValues ur).filter (fun d => !(decide (d ∈ t.sampleIds)))).dedup

/-- `_compute_peds` with `peds_type == "Sample"`: binarize, check referential
integrity, build donor and recipient sub-tables, mask each recipient with its
donor's presence row, and emit one row per recipient with
numerator = row sum of the masked recipient and denominator = row sum of the mask. -/
def _compute_peds_sample (t : FTable) (m : Metadata) (ur : List MRow) :
    Except PedsErr (List SampleRow) :=
  let bin := binarize t
  if refs_in_table t ur then
    let donorDf := bin.filter (fun p => decide (p.1 ∈ refValues ur))
    let recipDf := _create_recipient_table ur m bin
    .ok (recipDf.map (fun p =>
      let mask := donor_row donorDf (donor_of m p.1)
      let n := (List.zipWith (fun a b => a && b) mask p.2).count true
      let d := mask.count true
      { id := p.1, measure := npDiv n d,
        transfered_donor_features := n, total_donor_features := d,
        donor := donor_of m p.1, subject := subject_of m p.1,
        group := time_of m p.1 }))
  else
    .error (.referentialIntegrity (missing_refs t ur))

/-- `_compute_peds` with `peds_type == "Feature"`: same setup, but sums run along the
sample axis (one row per feature), and `dropna()` removes every emitted row whose
measure is NaN. -/
def _compute_peds_feature (t : FTable) (m : Metadata) (ur : List MRow)
    (pedsTime : Int) : Except PedsErr (List FeatureRow) :=
  let bin := binarize t
  if refs_in_table t ur then
    let donorDf := bin.filter (fun p => decide (p.1 ∈ refValues ur))
    let recipDf := _create_recipient_table ur m bin
    let maskRows := recipDf.map (fun p => donor_row donorDf (donor_of m p.1))
    let maskedRows := recipDf.map (fun p =>
      List.zipWith (fun a b => a && b) (donor_row donorDf (donor_of m p.1)) p.2)
    let rows := (t.featureIds.enum).map (fun q =>
      let n := (maskedRows.map (fun row => row.getD q.1 false)).count true
      let d := (maskRows.map (fun row => row.getD q.1 false)).count true
      ({ id := q.2, measure := npDiv n d,
         recipients_with_feature := n, all_possible_recipients := d,
         group := pedsTime, subject := q.2 } : FeatureRow))
    .ok (rows.filter (fun r => decide (r.measure ≠ NpVal.nan)))
  else
    .error (.referentialIntegrity (missing_refs t ur))

/-- `sample_peds`: filter metadata to the table's sample ids, run the validation and
filtering chain, then compute Sample-mode PEDS. -/
def sample_peds (t : FTable) (m : Metadata)
    (filterMissingReferences : Bool) (dropIncompleteSubjects : Bool) :
    Except PedsErr (List SampleRow) := do
  let md ← filter_ids m t.sampleIds
  let nt := num_timepoints md
  let (md, ur) ← _filter_associated_reference md filterMissingReferences
  _check_duplicate_subject_timepoint md
  let (md, ur) ← _check_subjects_in_all_timepoints md nt dropIncompleteSubjects ur
  _compute_peds_sample t md ur

/-- The caller's objects, threaded through a call to show the frame property:
every operation the source applies to them (`filter_ids`, `to_dataframe`,
comparison `> 0`, `dropna`, boolean-mask selection, `groupby`) returns a fresh
object, and the only in-place writes (`peds_df.loc[len(peds_df)] = ...` and the
`.attrs.update` calls) target the freshly created result frame. -/
structure CallerState where
  table : FTable
  metadata : Metadata
deriving Repr, DecidableEq

/-- `sample_peds` as the caller observes it: the result together with the caller's
table and metadata after the call.  All bindings in the source body rebind local
names; the caller's objects are only read. -/
def sample_peds_call (s : CallerState)
    (filterMissingReferences : Bool) (dropIncompleteSubjects : Bool) :
    Except PedsErr (List SampleRow) × CallerState :=
  (sample_peds s.table s.metadata filterMissingReferences dropIncompleteSubjects, s)

/-- The time groups of `metadata.groupby(time_column)`: distinct non-missing time
values in ascending order. -/
def time_groups (m : Metadata) : List Int :=
  ((m.filterMap (·.time)).dedup).insertionSort (fun a b => a ≤ b)

/-- `feature_peds`: same validation chain (without the duplicate-timepoint and
completeness checks), then Feature-mode PEDS once per time group, concatenated. -/
def feature_peds (t : FTable) (m : Metadata) (filterMissingReferences : Bool) :
    Except PedsErr (List FeatureRow) := do
  let md ← filter_ids m t.sampleIds
  let _nt := num_timepoints md
  let (md, ur) ← _filter_associated_reference md filterMissingReferences
  (time_groups md).foldlM (fun acc tm => do
    let rs ← _compute_peds_feature t (md.filter (fun r => r.time == some tm)) ur tm
    pure (acc ++ rs)) []

/-- `feature_peds` as the caller observes it (see `sample_peds_call`). -/
def feature_peds_call (s : CallerState) (filterMissingReferences : Bool) :
    Except PedsErr (List FeatureRow) × CallerState :=
  (feature_peds s.table s.metadata filterMissingReferences, s)

/-- Python runtime errors reachable from `peds_bootstrap`. -/
inductive PyErr where
  | typeError (msg : String)
deriving Repr, DecidableEq

/-- `peds_bootstrap` as written in the source: the statement
`metadata_df = metadata.to_dataframe` omits the call parentheses, so `metadata_df`
is a bound method and the next line `metadata_df.loc[metadata_df['Location'] == body_site]`
subscripts that method and raises `TypeError: 'method' object is not subscriptable`
before any replicate runs (the name `body_site` is additionally unbound, and the
function body ends without a `return` statement, so even the intended path would
yield `None` rather than the `(statistic, p-value)` pair).  The call therefore
fails unconditionally, with every later statement unreachable. -/
def peds_bootstrap (t : FTable) (m : Metadata)
    (filterMissingReferences : Bool) (dropIncompleteSubjects : Bool)
    (bootstrapReplicates : Nat) : Except PyErr (ℚ × ℚ) :=
  .error (.typeError "method object is not subscriptable")

/-- The recipient's abundance row of the feature table (spec side of C1). -/
def table_row (t : FTable) (s : String) : List Nat :=
  ((t.rows.find? (fun p => p.1 == s)).map (·.2)).getD []

/-- Number of features positive in the donor's row of the feature table. -/
def donor_feature_count (t : FTable) (d : String) : Nat :=
  (table_row t d).countP (fun a => decide (0 < a))

/-- Number of features positive in both the recipient's and the donor's row. -/
def transferred_count (t : FTable) (s d : String) : Nat :=
  (List.zipWith (fun a b => decide (0 < a) && decide (0 < b))
    (table_row t s) (table_row t d)).count true

/-- The metadata rows C4 says the filtering branch drops: exactly the rows with a
non-missing time value and a missing reference.  (Claim side: the code instead
drops every row with a missing reference.) -/
def drop_exactly_missing_assoc (m : Metadata) : Metadata :=
  m.filter (fun r => !(r.time.isSome && r.ref.isNone))

/-- Example feature table: donor `D` carries features f1,f2,f3; recipient `A`
carries f1,f2 (the worked example of the spec); donor `E` carries nothing. -/
def exT : FTable :=
  { featureIds := ["f1", "f2", "f3"],
    rows := [("D", [5, 1, 2]), ("A", [3, 4, 0]), ("B", [0, 0, 0]),
             ("E", [0, 0, 0]), ("C", [1, 0, 0])] }

/-- Example metadata: recipients A, B assigned to donor D, recipient C assigned to
the empty donor E; donor rows have no time value and no reference. -/
def exM : Metadata :=
  [⟨"D", none, none, "sD"⟩,
   ⟨"A", some 1, some "D", "sA"⟩,
   ⟨"B", some 1, some "D", "sB"⟩,
   ⟨"E", none, none, "sE"⟩,
   ⟨"C", some 1, some "E", "sC"⟩]

/-- The Sample-mode result table on the example input. -/
def exSampleRows : List SampleRow :=
  [{ id := "A", measure := .val 2 3, transfered_donor_features := 2,
     total_donor_features := 3, donor := "D", subject := "sA", group := some 1 },
   { id := "B", measure := .val 0 3, transfered_donor_features := 0,
     total_donor_features := 3, donor := "D", subject := "sB", group := some 1 },
   { id := "C", measure := .nan, transfered_donor_features := 0,
     total_donor_features := 0, donor := "E", subject := "sC", group := some 1 }]

/-- The Feature-mode result table on the example input. -/
def exFeatureRows : List FeatureRow :=
  [{ id := "f1", measure := .val 1 2, recipients_with_feature := 1,
     all_possible_recipients := 2, group := 1, subject := "f1" },
   { id := "f2", measure := .val 1 2, recipients_with_feature := 1,
     all_possible_recipients := 2, group := 1, subject := "f2" },
   { id := "f3", measure := .val 0 2, recipients_with_feature := 0,
     all_possible_recipients := 2, group := 1, subject := "f3" }]

/-- Metadata for C4: sample s1 has a time value but no reference; sample s2 has
neither a time value nor a reference. -/
def c4m : Metadata :=
  [⟨"s1", some 0, none, "a"⟩, ⟨"s2", none, none, "a"⟩]

/-- Metadata for C5: two timepoints; subject s1 is complete, subject s2 misses
timepoint 2. -/
def m5 : Metadata :=
  [⟨"x1", some 1, some "D", "s1"⟩, ⟨"x2", some 2, some "D", "s1"⟩,
   ⟨"x3", some 1, some "D", "s2"⟩]

/-- Metadata for C10: subject s1 occurs three times (a row with a missing time
value on top of both timepoints), subject s2 only once, with two distinct
non-missing time values overall. -/
def m10 : Metadata :=
  [⟨"y1", some 1, some "D", "s1"⟩, ⟨"y2", some 2, some "D", "s1"⟩,
   ⟨"y3", none, some "D", "s1"⟩, ⟨"y4", some 1, some "D", "s2"⟩]

/-- A metadata row whose sample id does not occur in the example feature table. -/
def zRow : MRow := ⟨"Z", some 1, some "D", "sZ"⟩

/-- C7: `sample_peds` is deterministic: two invocations on identical table and
metadata arguments (and identical flags) produce identical result tables,
same rows, same values, same order.  The source path uses no randomness. -/
theorem C7_sample_peds_deterministic (t t₂ : FTable) (m m₂ : Metadata)
    (fmr dis : Bool) (ht : t = t₂) (hm : m = m₂) :
    sample_peds t m fmr dis = sample_peds t₂ m₂ fmr dis := by
  subst ht; subst hm; rfl

/-- C7 witness: the determinism theorem applied at the concrete example input. -/
theorem C7_sample_peds_deterministic_witness :
    sample_peds exT exM false false = sample_peds exT exM false false :=
  C7_sample_peds_deterministic exT exT exM exM false false rfl rfl

/-- C8: `sample_peds` and `feature_peds` leave the caller's feature table and
metadata unchanged: after either call the caller's state is exactly the input
state, and the result is a fresh value computed from it.  (Every operation the
source applies to the inputs returns a new object; the only in-place writes
target the freshly constructed result frame.) -/
theorem C8_inputs_unchanged (s : CallerState) (fmr dis : Bool) :
    (sample_peds_call s fmr dis).2 = s
    ∧ (feature_peds_call s fmr).2 = s
    ∧ (sample_peds_call s fmr dis).1 = sample_peds s.table s.metadata fmr dis
    ∧ (feature_peds_call s fmr).1 = feature_peds s.table s.metadata fmr :=
  ⟨rfl, rfl, rfl, rfl⟩

/-- C3: `peds_bootstrap` never returns a (statistic, p-value) pair: as written it
fails unconditionally before the first replicate (subscripting the un-called
`to_dataframe` method raises TypeError; `body_site` is unbound; and the body has
no `return` statement), so the rank-sum result computed on the last line is
never delivered to the caller. -/
theorem C3_peds_bootstrap_failure (t : FTable) (m : Metadata)
    (fmr dis : Bool) (reps : Nat) :
    peds_bootstrap t m fmr dis reps
      = .error (.typeError "method object is not subscriptable")
    ∧ ∀ sp : ℚ × ℚ, peds_bootstrap t m fmr dis reps ≠ .ok sp := by
  exact ⟨rfl, fun sp h => by cases h⟩

/-- C4 counterexample: on `c4m` with `filter_missing_references = true` the code
returns the empty metadata — it also dropped sample s2, whose time value is
missing, because `dropna(subset=[reference_column])` removes every row with a
missing reference — while the claim says exactly the timestamped
missing-reference rows (only s1) are dropped, which would leave s2. -/
theorem C4_filter_missing_counterexample :
    _filter_associated_reference c4m true = .ok ([], [])
    ∧ drop_exactly_missing_assoc c4m = [⟨"s2", none, none, "a"⟩]
    ∧ (([] : Metadata) ≠ [(⟨"s2", none, none, "a"⟩ : MRow)]) := by
  refine ⟨rfl, rfl, ?_⟩
  intro h
  cases h

/-- C4 amended: when some sample with a non-missing time value has a missing
reference, `filter_missing_references = false` raises naming exactly the ids of
those timestamped samples, and `filter_missing_references = true` proceeds,
dropping from the reference series exactly those samples but dropping from the
metadata every row with a missing reference, including rows with no time value. -/
theorem C4_filter_missing_amended (m : Metadata)
    (h : ∃ r ∈ m, r.time.isSome = true ∧ r.ref = none) :
    _filter_associated_reference m false =
      .error (.missingAssociation
        ((m.filter (fun r => r.time.isSome && r.ref.isNone)).map (·.id)))
    ∧ _filter_associated_reference m true =
      .ok (m.filter (fun r => r.ref.isSome),
           m.filter (fun r => r.time.isSome && r.ref.isSome)) := by
  obtain ⟨r, hrm, ht, hr⟩ := h
  have hany : ((m.filter (fun r => r.time.isSome)).any (fun r => r.ref.isNone)) = true := by
    rw [List.any_eq_true]
    exact ⟨r, List.mem_filter.mpr ⟨hrm, ht⟩, by simp [hr]⟩
  have hff : ∀ (p : MRow → Bool),
      (m.filter (fun r => r.time.isSome)).filter p
        = m.filter (fun r => r.time.isSome && p r) := by
    intro p
    rw [List.filter_filter]
    exact List.filter_congr (fun a _ => Bool.and_comm _ _)
  constructor
  · show (if (m.filter (fun r => r.time.isSome)).any (fun r => r.ref.isNone) = true
          then _ else _) = _
    rw [if_pos hany, if_neg (by decide : ¬ false = true), hff]
  · show (if (m.filter (fun r => r.time.isSome)).any (fun r => r.ref.isNone) = true
          then _ else _) = _
    rw [if_pos hany, if_pos (rfl : true = true), hff]

/-- C4 witness: the amended theorem applied at the concrete metadata `c4m`. -/
theorem C4_filter_missing_amended_witness :
    _filter_associated_reference c4m false =
      .error (.missingAssociation
        ((c4m.filter (fun r => r.time.isSome && r.ref.isNone)).map (·.id)))
    ∧ _filter_associated_reference c4m true =
      .ok (c4m.filter (fun r => r.ref.isSome),
           c4m.filter (fun r => r.time.isSome && r.ref.isSome)) :=
  C4_filter_missing_amended c4m ⟨⟨"s1", some 0, none, "a"⟩, by decide, rfl, rfl⟩

/-- C5: when some subject occurs fewer than `num_timepoints` times
(`num_timepoints` being the number of distinct non-missing time values of the
metadata before filtering), `drop_incomplete_subjects = false` raises an
incomplete-subject error whose list contains every incomplete subject, and
`drop_incomplete_subjects = true` removes every row of each subject that does
not reach the full count, re-filters the reference series to the kept rows,
and continues without error. -/
theorem C5_incomplete_subjects (m0 m : Metadata) (ur : List MRow)
    (h : ∃ r ∈ m, subject_count m r.subject < num_timepoints m0) :
    (∃ subs, _check_subjects_in_all_timepoints m (num_timepoints m0) false ur
        = .error (.incompleteSubjects subs)
      ∧ ∀ r ∈ m, subject_count m r.subject < num_timepoints m0 → r.subject ∈ subs)
    ∧ (∃ md2, _check_subjects_in_all_timepoints m (num_timepoints m0) true ur
        = .ok (md2, ur.filter (fun r => decide (r.id ∈ md2.map (·.id))))
      ∧ ∀ r ∈ md2, ¬ subject_count m r.subject < num_timepoints m0) := by
  have hany : (m.any fun r => decide (subject_count m r.subject < num_timepoints m0))
      = true := by
    rw [List.any_eq_true]
    obtain ⟨r, hrm, hlt⟩ := h
    exact ⟨r, hrm, by simpa using hlt⟩
  constructor
  · refine ⟨((m.map (·.subject)).dedup).filter
        (fun s => subject_count m s != num_timepoints m0), ?_, ?_⟩
    · show (if (m.any fun r => decide (subject_count m r.subject < num_timepoints m0))
              = true then _ else _) = _
      rw [if_pos hany]
      rfl
    · intro r hrm hlt
      refine List.mem_filter.mpr ⟨List.mem_dedup.mpr (List.mem_map.mpr ⟨r, hrm, rfl⟩), ?_⟩
      simpa using Nat.ne_of_lt hlt
  · refine ⟨m.filter (fun r => subject_count m r.subject == num_timepoints m0), ?_, ?_⟩
    · show (if (m.any fun r => decide (subject_count m r.subject < num_timepoints m0))
              = true then _ else _) = _
      rw [if_pos hany]
      rfl
    · intro r hr
      have := (List.mem_filter.mp hr).2
      have heq : subject_count m r.subject = num_timepoints m0 := by simpa using this
      omega

/-- C5 witness: the incomplete-subject theorem applied at `m5`, where subject s2
misses one of the two timepoints. -/
theorem C5_incomplete_subjects_witness :
    (∃ subs, _check_subjects_in_all_timepoints m5 (num_timepoints m5) false m5
        = .error (.incompleteSubjects subs)
      ∧ ∀ r ∈ m5, subject_count m5 r.subject < num_timepoints m5 → r.subject ∈ subs)
    ∧ (∃ md2, _check_subjects_in_all_timepoints m5 (num_timepoints m5) true m5
        = .ok (md2, m5.filter (fun r => decide (r.id ∈ md2.map (·.id))))
      ∧ ∀ r ∈ md2, ¬ subject_count m5 r.subject < num_timepoints m5) :=
  C5_incomplete_subjects m5 m5 m5 ⟨⟨"x3", some 1, some "D", "s2"⟩, by decide, by decide⟩

/-- C10: with dropping enabled and some subject below `numTimepoints`, the rows
kept are exactly those of subjects whose occurrence count equals
`numTimepoints` — a subject whose count exceeds it (possible via a row with a
missing time value) is removed as well — and with dropping disabled the error
lists exactly the subjects whose count differs from `numTimepoints`, again
including those exceeding it. -/
theorem C10_exact_subject_filter (m : Metadata) (nt : Nat) (ur : List MRow)
    (h : ∃ r ∈ m, subject_count m r.subject < nt) :
    (∃ md2 ur2, _check_subjects_in_all_timepoints m nt true ur = .ok (md2, ur2)
      ∧ ∀ r, r ∈ md2 ↔ (r ∈ m ∧ subject_count m r.subject = nt))
    ∧ (∃ subs, _check_subjects_in_all_timepoints m nt false ur
        = .error (.incompleteSubjects subs)
      ∧ ∀ s, s ∈ subs ↔ (s ∈ m.map (·.subject) ∧ subject_count m s ≠ nt)) := by
  have hany : (m.any fun r => decide (subject_count m r.subject < nt)) = true := by
    rw [List.any_eq_true]
    obtain ⟨r, hrm, hlt⟩ := h
    exact ⟨r, hrm, by simpa using hlt⟩
  constructor
  · refine ⟨m.filter (fun r => subject_count m r.subject == nt),
      ur.filter (fun r => decide (r.id ∈ (m.filter
        (fun r2 => subject_count m r2.subject == nt)).map (·.id))), ?_, ?_⟩
    · show (if (m.any fun r => decide (subject_count m r.subject < nt)) = true
            then _ else _) = _
      rw [if_pos hany]
      rfl
    · intro r
      rw [List.mem_filter]
      constructor
      · rintro ⟨h1, h2⟩
        exact ⟨h1, by simpa using h2⟩
      · rintro ⟨h1, h2⟩
        exact ⟨h1, by simpa using h2⟩
  · refine ⟨((m.map (·.subject)).dedup).filter (fun s => subject_count m s != nt), ?_, ?_⟩
    · show (if (m.any fun r => decide (subject_count m r.subject < nt)) = true
            then _ else _) = _
      rw [if_pos hany]
      rfl
    · intro s
      rw [List.mem_filter, List.mem_dedup]
      constructor
      · rintro ⟨h1, h2⟩
        exact ⟨h1, by simpa using h2⟩
      · rintro ⟨h1, h2⟩
        exact ⟨h1, by simpa using h2⟩

/-- C10 witness: the exact-filter theorem applied at `m10`, where subject s1
occurs three times against two required timepoints and subject s2 once. -/
theorem C10_exact_subject_filter_witness :
    (∃ md2 ur2, _check_subjects_in_all_timepoints m10 2 true m10 = .ok (md2, ur2)
      ∧ ∀ r, r ∈ md2 ↔ (r ∈ m10 ∧ subject_count m10 r.subject = 2))
    ∧ (∃ subs, _check_subjects_in_all_timepoints m10 2 false m10
        = .error (.incompleteSubjects subs)
      ∧ ∀ s, s ∈ subs ↔ (s ∈ m10.map (·.subject) ∧ subject_count m10 s ≠ 2)) :=
  C10_exact_subject_filter m10 2 m10 ⟨⟨"y4", some 1, some "D", "s2"⟩, by decide, by decide⟩

/-- Inserting metadata rows whose ids are outside a given id list changes neither
branch of `filter_ids` for that list. -/
theorem filter_ids_insert_irrelevant (ids : List String) (m1 m2 extra : Metadata)
    (h : ∀ r ∈ extra, r.id ∉ ids) :
    filter_ids (m1 ++ extra ++ m2) ids = filter_ids (m1 ++ m2) ids := by
  have hany : ∀ i ∈ ids, ((m1 ++ extra ++ m2).any (fun r => r.id == i))
      = ((m1 ++ m2).any (fun r => r.id == i)) := by
    intro i hi
    rw [Bool.eq_iff_iff, List.any_eq_true, List.any_eq_true]
    constructor
    · rintro ⟨r, hr, hid⟩
      rw [List.mem_append, List.mem_append] at hr
      rcases hr with (hr | hr) | hr
      · exact ⟨r, List.mem_append.mpr (.inl hr), hid⟩
      · exact absurd hi (by
          have hri : r.id = i := by simpa using hid
          rw [← hri]
          exact h r hr)
      · exact ⟨r, List.mem_append.mpr (.inr hr), hid⟩
    · rintro ⟨r, hr, hid⟩
      rw [List.mem_append] at hr
      rcases hr with hr | hr
      · exact ⟨r, by simp [List.mem_append, hr], hid⟩
      · exact ⟨r, by simp [List.mem_append, hr], hid⟩
  have hall : (ids.all (fun i => (m1 ++ extra ++ m2).any (fun r => r.id == i)))
      = (ids.all (fun i => (m1 ++ m2).any (fun r => r.id == i))) := by
    rw [Bool.eq_iff_iff, List.all_eq_true, List.all_eq_true]
    constructor <;> intro hh i hi
    · rw [← hany i hi]; exact hh i hi
    · rw [hany i hi]; exact hh i hi
  have hfil : (m1 ++ extra ++ m2).filter (fun r => decide (r.id ∈ ids))
      = (m1 ++ m2).filter (fun r => decide (r.id ∈ ids)) := by
    simp only [List.filter_append]
    have hex : extra.filter (fun r => decide (r.id ∈ ids)) = [] := by
      rw [List.filter_eq_nil_iff]
      intro r hr
      simpa using h r hr
    rw [hex, List.append_nil]
  have herr : ids.filter (fun i => !((m1 ++ extra ++ m2).any (fun r => r.id == i)))
      = ids.filter (fun i => !((m1 ++ m2).any (fun r => r.id == i))) :=
    List.filter_congr (fun i hi => by rw [hany i hi])
  unfold filter_ids
  rw [hall, hfil, herr]

/-- C9: `sample_peds` and `feature_peds` restrict the metadata to the feature
table's sample ids first, so metadata rows for samples absent from the table are
silently ignored: inserting (or removing) any block of such rows anywhere leaves
the output, error or result table alike, unchanged. -/
theorem C9_absent_metadata_rows_ignored (t : FTable) (m1 m2 extra : Metadata)
    (fmr dis : Bool) (h : ∀ r ∈ extra, r.id ∉ t.sampleIds) :
    sample_peds t (m1 ++ extra ++ m2) fmr dis = sample_peds t (m1 ++ m2) fmr dis
    ∧ feature_peds t (m1 ++ extra ++ m2) fmr = feature_peds t (m1 ++ m2) fmr := by
  have key := filter_ids_insert_irrelevant t.sampleIds m1 m2 extra h
  constructor
  · unfold sample_peds
    rw [key]
  · unfold feature_peds
    rw [key]

/-- C9 witness: the theorem applied at the example input with an extra row `Z`
absent from the table. -/
theorem C9_absent_metadata_rows_ignored_witness :
    sample_peds exT (exM ++ [zRow] ++ []) false false = sample_peds exT (exM ++ []) false false
    ∧ feature_peds exT (exM ++ [zRow] ++ []) false = feature_peds exT (exM ++ []) false :=
  C9_absent_metadata_rows_ignored exT exM [] [zRow] false false (by decide)
/-- Destructor for a successful `Except` bind. -/
theorem except_bind_ok {ε α β : Type} (x : Except ε α) (f : α → Except ε β) (b : β)
    (h : x >>= f = .ok b) : ∃ a, x = .ok a ∧ f a = .ok b := by
  cases x with
  | error e => exact absurd h (by simp [Bind.bind, Except.bind])
  | ok a => exact ⟨a, rfl, by simpa [Bind.bind, Except.bind] using h⟩

/-- Masking with a logical AND can only lose presences: the masked row has at most
as many set positions as the mask. -/
theorem count_true_zipWith_and_le (xs ys : List Bool) :
    (List.zipWith (fun a b => a && b) xs ys).count true ≤ xs.count true := by
  induction xs generalizing ys with
  | nil => simp
  | cons a xs ih =>
    cases ys with
    | nil => simp
    | cons b ys =>
      have := ih ys
      cases a <;> cases b <;> simp [List.zipWith_cons_cons, List.count_cons] <;> omega

/-- A set position of a masked row is a set position of the mask. -/
theorem getD_zipWith_and (xs ys : List Bool) (j : Nat)
    (h : (List.zipWith (fun a b => a && b) xs ys).getD j false = true) :
    xs.getD j false = true := by
  induction xs generalizing ys j with
  | nil => simpa using h
  | cons a xs ih =>
    cases ys with
    | nil => simp at h
    | cons b ys =>
      cases j with
      | zero =>
        rw [List.zipWith_cons_cons, List.getD_cons_zero] at h
        rw [List.getD_cons_zero]
        exact (Bool.and_eq_true a b ▸ h).1
      | succ k =>
        rw [List.zipWith_cons_cons, List.getD_cons_succ] at h
        rw [List.getD_cons_succ]
        exact ih ys k h

theorem count_true_map {α : Type} (f : α → Bool) (l : List α) :
    (l.map f).count true = l.countP f := by
  rw [List.count_eq_countP, List.countP_map]
  exact List.countP_congr (fun x _ => by simp [Function.comp])

/-- Range of a numpy count quotient: with numerator at most denominator, the value
is NaN exactly for denominator zero and otherwise a finite quotient in the unit
interval; +inf is unreachable. -/
theorem npDiv_spec (n d : Nat) (h : n ≤ d) :
    (npDiv n d = NpVal.nan ∨ ((∃ n2 d2, npDiv n d = NpVal.val n2 d2)
        ∧ 0 ≤ (npDiv n d).toRat ∧ (npDiv n d).toRat ≤ 1))
    ∧ (npDiv n d = NpVal.nan ↔ d = 0) := by
  unfold npDiv
  by_cases hd : d = 0
  · subst hd
    have hn : n = 0 := Nat.le_zero.mp h
    subst hn
    simp
  · rw [if_neg hd]
    have hdq : (0 : ℚ) < d := by
      exact_mod_cast Nat.pos_of_ne_zero hd
    constructor
    · right
      refine ⟨⟨n, d, rfl⟩, ?_, ?_⟩
      · exact div_nonneg (by positivity) (le_of_lt hdq)
      · show (n : ℚ) / (d : ℚ) ≤ 1
        rw [div_le_one hdq]
        exact_mod_cast h
    · simp [hd]

/-- Every Sample-mode row's measure is the quotient of its own numerator and
denominator columns, and the numerator never exceeds the denominator. -/
theorem compute_sample_measure (t : FTable) (m : Metadata) (ur : List MRow)
    (rows : List SampleRow) (hok : _compute_peds_sample t m ur = .ok rows) :
    ∀ r ∈ rows, r.measure = npDiv r.transfered_donor_features r.total_donor_features
      ∧ r.transfered_donor_features ≤ r.total_donor_features := by
  by_cases hrt : refs_in_table t ur = true
  · simp only [_compute_peds_sample] at hok
    rw [if_pos hrt] at hok
    rw [Except.ok.injEq] at hok
    subst hok
    intro r hr
    rw [List.mem_map] at hr
    obtain ⟨p, hp, rfl⟩ := hr
    exact ⟨rfl, count_true_zipWith_and_le _ _⟩
  · simp only [_compute_peds_sample] at hok
    rw [if_neg hrt] at hok
    cases hok

/-- Every Feature-mode row's measure is the quotient of its own numerator and
denominator columns, the numerator never exceeds the denominator, and no NaN row
survives the `dropna`. -/
theorem compute_feature_measure (t : FTable) (m : Metadata) (ur : List MRow)
    (pt : Int) (frows : List FeatureRow)
    (hok : _compute_peds_feature t m ur pt = .ok frows) :
    ∀ r ∈ frows, r.measure = npDiv r.recipients_with_feature r.all_possible_recipients
      ∧ r.recipients_with_feature ≤ r.all_possible_recipients
      ∧ r.measure ≠ NpVal.nan := by
  by_cases hrt : refs_in_table t ur = true
  · simp only [_compute_peds_feature] at hok
    rw [if_pos hrt] at hok
    rw [Except.ok.injEq] at hok
    subst hok
    intro r hr
    rw [List.mem_filter] at hr
    obtain ⟨hrows, hnn⟩ := hr
    have hne : r.measure ≠ NpVal.nan := by simpa using hnn
    rw [List.mem_map] at hrows
    obtain ⟨q, hq, rfl⟩ := hrows
    refine ⟨rfl, ?_, hne⟩
    rw [List.map_map, List.map_map, count_true_map, count_true_map]
    apply List.countP_mono_left
    intro p hp hcomp
    simp only [Function.comp] at hcomp ⊢
    exact getD_zipWith_and _ _ _ hcomp
  · simp only [_compute_peds_feature] at hok
    rw [if_neg hrt] at hok
    cases hok

/-- Lifting a per-step property through the `foldlM` accumulation of
`feature_peds`. -/
theorem foldlM_except_all {α β : Type} (P : β → Prop)
    (f : List β → α → Except PedsErr (List β))
    (hf : ∀ acc a res, f acc a = .ok res → (∀ r ∈ acc, P r) → ∀ r ∈ res, P r)
    (ts : List α) : ∀ (acc res : List β), (∀ r ∈ acc, P r) →
      ts.foldlM f acc = .ok res → ∀ r ∈ res, P r := by
  induction ts with
  | nil =>
    intro acc res hacc hok
    rw [List.foldlM_nil] at hok
    have : acc = res := by simpa [pure, Except.pure] using hok
    subst this
    exact hacc
  | cons a ts ih =>
    intro acc res hacc hok
    rw [List.foldlM_cons] at hok
    obtain ⟨acc2, hfa, hrest⟩ := except_bind_ok _ _ _ hok
    exact ih acc2 res (hf acc a acc2 hfa hacc) hrest

/-- Every row of a successful `feature_peds` call satisfies the per-row measure
properties of `compute_feature_measure`. -/
theorem feature_peds_rows_spec (t : FTable) (m : Metadata) (fmr : Bool)
    (frows : List FeatureRow) (hok : feature_peds t m fmr = .ok frows) :
    ∀ r ∈ frows, r.measure = npDiv r.recipients_with_feature r.all_possible_recipients
      ∧ r.recipients_with_feature ≤ r.all_possible_recipients
      ∧ r.measure ≠ NpVal.nan := by
  unfold feature_peds at hok
  obtain ⟨md1, h1, hok⟩ := except_bind_ok _ _ _ hok
  obtain ⟨p2, h2, hok⟩ := except_bind_ok _ _ _ hok
  obtain ⟨md2, ur2⟩ := p2
  refine foldlM_except_all _ _ ?_ (time_groups md2) [] frows (by simp) hok
  intro acc tm res hstep hacc r hr
  obtain ⟨rs, hcf, hpure⟩ := except_bind_ok _ _ _ hstep
  have hres : acc ++ rs = res := by simpa [pure, Except.pure] using hpure
  rw [← hres] at hr
  rcases List.mem_append.mp hr with hh | hh
  · exact hacc r hh
  · exact compute_feature_measure t _ ur2 tm rs hcf r hh

/-- A successful `sample_peds` run is a successful `_compute_peds_sample` run on
the filtered metadata and reference series. -/
theorem sample_peds_ok_compute (t : FTable) (m : Metadata) (fmr dis : Bool)
    (rows : List SampleRow) (hok : sample_peds t m fmr dis = .ok rows) :
    ∃ md ur, _compute_peds_sample t md ur = .ok rows := by
  unfold sample_peds at hok
  obtain ⟨md1, h1, hok⟩ := except_bind_ok _ _ _ hok
  obtain ⟨p2, h2, hok⟩ := except_bind_ok _ _ _ hok
  obtain ⟨md2, ur2⟩ := p2
  obtain ⟨u, h3, hok⟩ := except_bind_ok _ _ _ hok
  obtain ⟨p3, h4, hok⟩ := except_bind_ok _ _ _ hok
  obtain ⟨md3, ur3⟩ := p3
  exact ⟨md3, ur3, hok⟩

/-- C2: every PEDS measure produced, in Sample and Feature mode alike, is NaN or a
finite quotient lying in the closed unit interval, and it is NaN exactly when the
donor denominator column of its row is 0; the 0/0 division produces the NaN value
rather than an error. -/
theorem C2_peds_measure_range (t : FTable) (m : Metadata) (fmr dis : Bool) :
    (∀ rows, sample_peds t m fmr dis = .ok rows → ∀ r ∈ rows,
      (r.measure = NpVal.nan ∨ ((∃ n2 d2, r.measure = NpVal.val n2 d2)
          ∧ 0 ≤ r.measure.toRat ∧ r.measure.toRat ≤ 1))
      ∧ (r.measure = NpVal.nan ↔ r.total_donor_features = 0))
    ∧ (∀ frows, feature_peds t m fmr = .ok frows → ∀ r ∈ frows,
      (r.measure = NpVal.nan ∨ ((∃ n2 d2, r.measure = NpVal.val n2 d2)
          ∧ 0 ≤ r.measure.toRat ∧ r.measure.toRat ≤ 1))
      ∧ (r.measure = NpVal.nan ↔ r.all_possible_recipients = 0)) := by
  constructor
  · intro rows hok r hr
    obtain ⟨md, ur, hcomp⟩ := sample_peds_ok_compute t m fmr dis rows hok
    obtain ⟨hm, hle⟩ := compute_sample_measure t md ur rows hcomp r hr
    rw [hm]
    exact npDiv_spec _ _ hle
  · intro frows hok r hr
    obtain ⟨hm, hle, _⟩ := feature_peds_rows_spec t m fmr frows hok r hr
    rw [hm]
    exact npDiv_spec _ _ hle

/-- C2 witness: the range theorem applied to the concrete example run of both
modes. -/
theorem C2_peds_measure_range_witness :
    (∀ r ∈ exSampleRows,
      (r.measure = NpVal.nan ∨ ((∃ n2 d2, r.measure = NpVal.val n2 d2)
          ∧ 0 ≤ r.measure.toRat ∧ r.measure.toRat ≤ 1))
      ∧ (r.measure = NpVal.nan ↔ r.total_donor_features = 0))
    ∧ (∀ r ∈ exFeatureRows,
      (r.measure = NpVal.nan ∨ ((∃ n2 d2, r.measure = NpVal.val n2 d2)
          ∧ 0 ≤ r.measure.toRat ∧ r.measure.toRat ≤ 1))
      ∧ (r.measure = NpVal.nan ↔ r.all_possible_recipients = 0)) :=
  ⟨(C2_peds_measure_range exT exM false false).1 exSampleRows (by rfl),
   (C2_peds_measure_range exT exM false false).2 exFeatureRows (by rfl)⟩

/-- C6: a Feature-mode result table never contains a row whose measure is NaN
(they are dropped by the `dropna`), while the Sample-mode result table retains
NaN rows: on the example input the recipient assigned to the empty donor E keeps
its NaN row. -/
theorem C6_nan_row_retention (t : FTable) (m : Metadata) (fmr : Bool) :
    (∀ frows, feature_peds t m fmr = .ok frows → ∀ r ∈ frows, r.measure ≠ NpVal.nan)
    ∧ (∃ rows, sample_peds exT exM false false = .ok rows
        ∧ ∃ r ∈ rows, r.measure = NpVal.nan) := by
  constructor
  · intro frows hok r hr
    exact (feature_peds_rows_spec t m fmr frows hok r hr).2.2
  · refine ⟨exSampleRows, by rfl, ?_⟩
    refine ⟨{ id := "C", measure := .nan, transfered_donor_features := 0,
              total_donor_features := 0, donor := "E", subject := "sC",
              group := some 1 }, ?_, rfl⟩
    decide

/-- C6 witness: the Feature-mode half applied to the concrete example run. -/
theorem C6_nan_row_retention_witness :
    ∀ r ∈ exFeatureRows, r.measure ≠ NpVal.nan :=
  (C6_nan_row_retention exT exM false).1 exFeatureRows (by rfl)
/-- `find?` returns a designated member when it satisfies the predicate and is the
only member that does. -/
theorem find?_eq_of_mem {α : Type} (l : List α) (p : α → Bool) (a : α)
    (ha : a ∈ l) (hpa : p a = true) (huniq : ∀ b ∈ l, p b = true → b = a) :
    l.find? p = some a := by
  induction l with
  | nil => cases ha
  | cons x xs ih =>
    by_cases hx : p x = true
    · have hxa : x = a := huniq x (List.mem_cons_self x xs) hx
      subst hxa
      exact List.find?_cons_of_pos xs hx
    · have hax : a ∈ xs := by
        rcases List.mem_cons.mp ha with hh | hh
        · exact absurd (hh ▸ hpa) hx
        · exact hh
      rw [List.find?_cons_of_neg xs hx]
      exact ih hax (fun b hb hpb => huniq b (List.mem_cons_of_mem _ hb) hpb)

/-- Filtering by a predicate implied by the search predicate does not change the
result of `find?`. -/
theorem find?_filter_of_imp {α : Type} (l : List α) (p q : α → Bool)
    (himp : ∀ x, p x = true → q x = true) :
    (l.filter q).find? p = l.find? p := by
  induction l with
  | nil => rfl
  | cons x xs ih =>
    by_cases hq : q x = true
    · rw [List.filter_cons_of_pos hq]
      by_cases hp : p x = true
      · rw [List.find?_cons_of_pos _ hp, List.find?_cons_of_pos _ hp]
      · rw [List.find?_cons_of_neg _ hp, List.find?_cons_of_neg _ hp]
        exact ih
    · rw [List.filter_cons_of_neg hq]
      have hp : ¬ p x = true := fun hpx => hq (himp x hpx)
      rw [List.find?_cons_of_neg _ hp]
      exact ih

/-- With unique metadata ids, `metadata.loc` retrieves exactly the member row. -/
theorem lookup_row_eq (m : Metadata) (hN : (m.map (·.id)).Nodup) (r : MRow)
    (hr : r ∈ m) : lookup_row m r.id = some r := by
  apply find?_eq_of_mem m _ r hr (by simp)
  intro b hb hpb
  have hid : b.id = r.id := by simpa using hpb
  exact List.inj_on_of_nodup_map hN hb hr hid

/-- With unique table ids, `table_row` retrieves exactly the member row. -/
theorem table_row_eq (t : FTable) (hN : t.sampleIds.Nodup) (q : String × List Nat)
    (hq : q ∈ t.rows) : table_row t q.1 = q.2 := by
  unfold table_row
  rw [find?_eq_of_mem t.rows _ q hq (by simp) ?_]
  · rfl
  · intro b hb hpb
    have hid : b.1 = q.1 := by simpa using hpb
    exact List.inj_on_of_nodup_map hN hb hq hid

/-- With unique table ids, searching the binarized table for a present sample id
gives its binarized row. -/
theorem bin_find (t : FTable) (hN : t.sampleIds.Nodup) (s : String)
    (hs : s ∈ t.sampleIds) :
    (binarize t).find? (fun p => p.1 == s)
      = some (s, (table_row t s).map (fun a => decide (0 < a))) := by
  obtain ⟨q, hq, hq1⟩ := List.mem_map.mp hs
  have htr : table_row t s = q.2 := by
    rw [← hq1]
    exact table_row_eq t hN q hq
  apply find?_eq_of_mem
  · show (s, (table_row t s).map (fun a => decide (0 < a))) ∈ (binarize t)
    rw [htr]
    exact List.mem_map.mpr ⟨q, hq, by rw [hq1]⟩
  · simp
  · intro b hb hpb
    obtain ⟨qb, hqb, hbq⟩ := List.mem_map.mp hb
    have hb1 : b.1 = s := by simpa using hpb
    have hqb1 : qb.1 = s := by rw [← hb1, ← hbq]
    have hqq : qb = q := List.inj_on_of_nodup_map hN hqb hq (by rw [hqb1, hq1])
    rw [← hbq, hqq, hq1, htr]

/-- The donor's presence row gathered from the donor sub-table is the donor's
binarized feature-table row. -/
theorem donor_row_donorDf (t : FTable) (hN : t.sampleIds.Nodup) (ur : List MRow)
    (d : String) (hd : d ∈ refValues ur) (hdt : d ∈ t.sampleIds) :
    donor_row ((binarize t).filter (fun p => decide (p.1 ∈ refValues ur))) d
      = (table_row t d).map (fun a => decide (0 < a)) := by
  unfold donor_row
  rw [find?_filter_of_imp, bin_find t hN d hdt]
  · rfl
  · intro x hx
    have hx1 : x.1 = d := by simpa using hx
    simp [hx1, hd]

/-- Positivity-intersection counts are symmetric in the two rows. -/
theorem count_zip_pos_comm (xs ys : List Nat) :
    (List.zipWith (fun a b => decide (0 < a) && decide (0 < b)) xs ys).count true
      = (List.zipWith (fun a b => decide (0 < a) && decide (0 < b)) ys xs).count true := by
  induction xs generalizing ys with
  | nil => cases ys <;> simp
  | cons a xs ih =>
    cases ys with
    | nil => simp
    | cons b ys =>
      rw [List.zipWith_cons_cons, List.zipWith_cons_cons, List.count_cons,
        List.count_cons, ih ys, Bool.and_comm]
/-- A successful `filter_ids` returns the metadata restricted to the requested
ids. -/
theorem filter_ids_ok_eq (m : Metadata) (ids : List String) (md : Metadata)
    (h : filter_ids m ids = .ok md) :
    md = m.filter (fun r => decide (r.id ∈ ids)) := by
  unfold filter_ids at h
  by_cases hc : (ids.all (fun i => m.any (fun r => r.id == i))) = true
  · rw [if_pos hc, Except.ok.injEq] at h
    exact h.symm
  · rw [if_neg hc] at h
    cases h

/-- Invariants of a successful `_filter_associated_reference`: the metadata
shrinks, and every row of the reference series is a metadata row with a
non-missing reference. -/
theorem far_invariants (m : Metadata) (fmr : Bool) (md : Metadata) (ur : List MRow)
    (h : _filter_associated_reference m fmr = .ok (md, ur)) :
    md.Sublist m ∧ (∀ r ∈ ur, r ∈ md) ∧ (∀ r ∈ ur, r.ref.isSome = true) := by
  unfold _filter_associated_reference at h
  by_cases hc : ((m.filter (fun r => r.time.isSome)).any (fun r => r.ref.isNone)) = true
  · rw [if_pos hc] at h
    by_cases hf : fmr = true
    · rw [if_pos hf, Except.ok.injEq, Prod.mk.injEq] at h
      obtain ⟨hmd, hur⟩ := h
      subst hmd
      subst hur
      refine ⟨List.filter_sublist m, ?_, ?_⟩
      · intro r hr
        rw [List.mem_filter] at hr ⊢
        obtain ⟨hr1, hr2⟩ := hr
        exact ⟨(List.mem_filter.mp hr1).1, hr2⟩
      · intro r hr
        exact (List.mem_filter.mp hr).2
    · rw [if_neg hf] at h
      cases h
  · rw [if_neg hc] at h
    rw [Except.ok.injEq, Prod.mk.injEq] at h
    obtain ⟨hmd, hur⟩ := h
    subst hmd
    subst hur
    refine ⟨List.Sublist.refl m, ?_, ?_⟩
    · intro r hr
      exact (List.mem_filter.mp hr).1
    · intro r hr
      rw [List.any_eq_true] at hc
      have hno : ¬ (r.ref.isNone = true) := fun hh => hc ⟨r, hr, hh⟩
      cases ho : r.ref with
      | none => exact absurd (by rw [ho]; rfl) hno
      | some d => rfl

/-- A successful `_check_subjects_in_all_timepoints` either passes its inputs
through or keeps exactly the complete subjects' rows. -/
theorem csat_cases (m : Metadata) (nt : Nat) (dis : Bool) (ur : List MRow)
    (md2 : Metadata) (ur2 : List MRow)
    (h : _check_subjects_in_all_timepoints m nt dis ur = .ok (md2, ur2)) :
    (md2 = m ∧ ur2 = ur)
    ∨ (md2 = m.filter (fun r => subject_count m r.subject == nt)
       ∧ ur2 = ur.filter (fun r => decide (r.id ∈ md2.map (·.id)))) := by
  unfold _check_subjects_in_all_timepoints at h
  by_cases hc : (m.any fun r => decide (subject_count m r.subject < nt)) = true
  · rw [if_pos hc] at h
    by_cases hd : dis = true
    · rw [if_pos hd, Except.ok.injEq, Prod.mk.injEq] at h
      obtain ⟨hmd, hur⟩ := h
      right
      subst hmd
      subst hur
      exact ⟨rfl, rfl⟩
    · rw [if_neg hd] at h
      cases h
  · rw [if_neg hc, Except.ok.injEq, Prod.mk.injEq] at h
    obtain ⟨hmd, hur⟩ := h
    exact .inl ⟨hmd.symm, hur.symm⟩

/-- A row of the filtered metadata whose id occurs among the ids of a sublist of
metadata with unique ids is itself in the sublist. -/
theorem mem_of_id_mem_sublist (m md : Metadata) (hN : (m.map (·.id)).Nodup)
    (hsub : md.Sublist m) (r : MRow) (hr : r ∈ m) (hid : r.id ∈ md.map (·.id)) :
    r ∈ md := by
  obtain ⟨r2, hr2, hr2id⟩ := List.mem_map.mp hid
  have hr2m : r2 ∈ m := hsub.subset hr2
  have : r2 = r := List.inj_on_of_nodup_map hN hr2m hr hr2id
  exact this ▸ hr2

/-- Elimination of a successful `sample_peds` run, with the invariants the
Sample-mode correctness proof needs: the computation ran on a filtered metadata
with unique ids, and every reference-series row is a metadata row carrying a
non-missing reference. -/
theorem sample_peds_ok_full (t : FTable) (m : Metadata) (fmr dis : Bool)
    (rows : List SampleRow) (hmN : (m.map (·.id)).Nodup)
    (hok : sample_peds t m fmr dis = .ok rows) :
    ∃ md ur, _compute_peds_sample t md ur = .ok rows
      ∧ (md.map (·.id)).Nodup
      ∧ (∀ r ∈ ur, r ∈ md)
      ∧ (∀ r ∈ ur, r.ref.isSome = true) := by
  unfold sample_peds at hok
  obtain ⟨md1, h1, hok⟩ := except_bind_ok _ _ _ hok
  obtain ⟨p2, h2, hok⟩ := except_bind_ok _ _ _ hok
  obtain ⟨md2, ur2⟩ := p2
  obtain ⟨u, h3, hok⟩ := except_bind_ok _ _ _ hok
  obtain ⟨p3, h4, hok⟩ := except_bind_ok _ _ _ hok
  obtain ⟨md3, ur3⟩ := p3
  have hok2 : _compute_peds_sample t md3 ur3 = .ok rows := hok
  clear hok
  have hmd1 : md1 = m.filter (fun r => decide (r.id ∈ t.sampleIds)) :=
    filter_ids_ok_eq m t.sampleIds md1 h1
  have hmd1N : (md1.map (·.id)).Nodup := by
    rw [hmd1]
    exact ((List.filter_sublist m).map (·.id)).nodup hmN
  obtain ⟨hsub2, hur2, href2⟩ := far_invariants md1 fmr md2 ur2 h2
  have hmd2N : (md2.map (·.id)).Nodup := (hsub2.map (·.id)).nodup hmd1N
  rcases csat_cases md2 (num_timepoints md1) dis ur2 md3 ur3 h4 with
    ⟨hmd3, hur3⟩ | ⟨hmd3, hur3⟩
  · subst hmd3
    subst hur3
    exact ⟨md3, ur3, hok2, hmd2N, hur2, href2⟩
  · refine ⟨md3, ur3, hok2, ?_, ?_, ?_⟩
    · have hsub3 : md3.Sublist md2 := by
        rw [hmd3]
        exact List.filter_sublist md2
      exact (hsub3.map (·.id)).nodup hmd2N
    · intro r hr
      rw [hur3, List.mem_filter] at hr
      obtain ⟨hr1, hr2⟩ := hr
      have hrm2 : r ∈ md2 := hur2 r hr1
      have hsub3 : md3.Sublist md2 := by
        rw [hmd3]
        exact List.filter_sublist md2
      exact mem_of_id_mem_sublist md2 md3 hmd2N hsub3 r hrm2 (by simpa using hr2)
    · intro r hr
      rw [hur3, List.mem_filter] at hr
      exact href2 r hr.1
/-- Core Sample-mode correctness: under unique table and metadata ids and the
reference-series invariants, every emitted row's numerator is the number of
features positive in both the recipient's and its assigned donor's table row,
its denominator the number of features positive in the donor's row, and its
measure their numpy quotient. -/
theorem compute_sample_c1 (t : FTable) (md : Metadata) (ur : List MRow)
    (rows : List SampleRow) (htN : t.sampleIds.Nodup)
    (hmN : (md.map (·.id)).Nodup)
    (hurm : ∀ r ∈ ur, r ∈ md) (hurs : ∀ r ∈ ur, r.ref.isSome = true)
    (hok : _compute_peds_sample t md ur = .ok rows) :
    ∀ row ∈ rows,
      row.transfered_donor_features = transferred_count t row.id row.donor
      ∧ row.total_donor_features = donor_feature_count t row.donor
      ∧ row.measure = npDiv (transferred_count t row.id row.donor)
          (donor_feature_count t row.donor) := by
  by_cases hrt : refs_in_table t ur = true
  case neg =>
    simp only [_compute_peds_sample] at hok
    rw [if_neg hrt] at hok
    cases hok
  simp only [_compute_peds_sample] at hok
  rw [if_pos hrt, Except.ok.injEq] at hok
  subst hok
  intro row hrow
  rw [List.mem_map] at hrow
  obtain ⟨p, hp, hrw⟩ := hrow
  simp only [_create_recipient_table] at hp
  rw [List.mem_filter] at hp
  obtain ⟨hpbin, hpsub⟩ := hp
  have hsub : p.1 ∈ (ur.filter (fun r => decide (r.id ∈ md.map (·.id)))).map (·.id) := by
    simpa using hpsub
  rw [List.mem_map] at hsub
  obtain ⟨r0, hr0sub, hr0id⟩ := hsub
  rw [List.mem_filter] at hr0sub
  obtain ⟨hr0ur, _⟩ := hr0sub
  have hr0md : r0 ∈ md := hurm r0 hr0ur
  obtain ⟨d0, hd0⟩ := Option.isSome_iff_exists.mp (hurs r0 hr0ur)
  have hlk : lookup_row md p.1 = some r0 := by
    rw [← hr0id]
    exact lookup_row_eq md hmN r0 hr0md
  have hdon : donor_of md p.1 = d0 := by
    unfold donor_of
    rw [hlk]
    show (r0.ref).getD "" = d0
    rw [hd0]
    rfl
  have hd0rv : d0 ∈ refValues ur := List.mem_filterMap.mpr ⟨r0, hr0ur, hd0⟩
  have hd0t : d0 ∈ t.sampleIds := by
    unfold refs_in_table at hrt
    rw [List.all_eq_true] at hrt
    simpa using hrt d0 hd0rv
  unfold binarize at hpbin
  obtain ⟨q, hq, hpq⟩ := List.mem_map.mp hpbin
  have htr : table_row t q.1 = q.2 := table_row_eq t htN q hq
  have hmask : donor_row ((binarize t).filter (fun pp => decide (pp.1 ∈ refValues ur)))
      (donor_of md p.1) = (table_row t d0).map (fun a => decide (0 < a)) := by
    rw [hdon]
    exact donor_row_donorDf t htN ur d0 hd0rv hd0t
  have hp1 : p.1 = q.1 := by rw [← hpq]
  have hp2 : p.2 = q.2.map (fun a => decide (0 < a)) := by rw [← hpq]
  have hnum : (List.zipWith (fun a b => a && b)
        (donor_row ((binarize t).filter (fun pp => decide (pp.1 ∈ refValues ur)))
          (donor_of md p.1)) p.2).count true
      = transferred_count t p.1 (donor_of md p.1) := by
    rw [hmask, hp2, List.zipWith_map, hdon]
    unfold transferred_count
    rw [hp1, htr]
    exact count_zip_pos_comm (table_row t d0) q.2
  have hden : (donor_row ((binarize t).filter (fun pp => decide (pp.1 ∈ refValues ur)))
        (donor_of md p.1)).count true
      = donor_feature_count t (donor_of md p.1) := by
    rw [hmask, hdon]
    unfold donor_feature_count
    exact count_true_map _ _
  subst hrw
  refine ⟨hnum, hden, ?_⟩
  show _ = npDiv (transferred_count t p.1 (donor_of md p.1))
    (donor_feature_count t (donor_of md p.1))
  rw [← hnum, ← hden]
/-- C1: on the `sample_peds` path, every emitted row's measure equals the number
of features positive in both the recipient's table row and its assigned donor's
table row divided by the number of features positive in the donor's row, with
the `transfered_donor_features` and `total_donor_features` columns holding that
numerator and denominator.  (Unique sample ids are invariants of qiime2 metadata
and of the feature table.) -/
theorem C1_sample_peds_measure (t : FTable) (m : Metadata) (fmr dis : Bool)
    (rows : List SampleRow) (htN : t.sampleIds.Nodup)
    (hmN : (m.map (·.id)).Nodup)
    (hok : sample_peds t m fmr dis = .ok rows) :
    ∀ row ∈ rows,
      row.transfered_donor_features = transferred_count t row.id row.donor
      ∧ row.total_donor_features = donor_feature_count t row.donor
      ∧ row.measure = npDiv (transferred_count t row.id row.donor)
          (donor_feature_count t row.donor) := by
  obtain ⟨md, ur, hcomp, hN2, hurm, hurs⟩ :=
    sample_peds_ok_full t m fmr dis rows hmN hok
  exact compute_sample_c1 t md ur rows htN hN2 hurm hurs hcomp

/-- C1 witness: the theorem applied to the concrete example run, which realises
the spec's worked example (recipient A with features f1,f2 against donor D with
f1,f2,f3: numerator 2, denominator 3, PEDS 2/3). -/
theorem C1_sample_peds_measure_witness :
    (∀ row ∈ exSampleRows,
      row.transfered_donor_features = transferred_count exT row.id row.donor
      ∧ row.total_donor_features = donor_feature_count exT row.donor
      ∧ row.measure = npDiv (transferred_count exT row.id row.donor)
          (donor_feature_count exT row.donor))
    ∧ transferred_count exT "A" "D" = 2 ∧ donor_feature_count exT "D" = 3 :=
  ⟨C1_sample_peds_measure exT exM false false exSampleRows (by decide) (by decide) (by rfl),
   by decide, by decide⟩
